import Mathlib

/-
Verification development for the parsl ExtremeScaleExecutor front end
(src/parsl/executors/extreme_scale/exex.py) and the task distribution and
result routing core described by the accompanying design document
(Interchange, Task Queue Client, Result Router).

Part 1 embeds the visible source file exex.py: the class declaration, the
argument list and body of ExtremeScaleExecutor init, and the module level
names. Part 2 models the Interchange / client core from the design
document, as a labelled transition system, and proves its invariants.
-/

set_option maxHeartbeats 1000000

namespace ParslExex

/-- Python value of the launch_cmd argument and attribute: None or a str. -/
inductive PyStr where
  | none
  | mk (s : String)
  deriving DecidableEq

/-- Python truthiness of such a value: None and the empty string are falsy,
any non-empty string is truthy. -/
def PyStr.truthy : PyStr → Bool
  | .none => false
  | .mk s => !s.isEmpty

/-- Arguments of ExtremeScaleExecutor init in exex.py (lines 88 to 99): the
user-facing configuration surface. Opaque Python objects (the provider and
storage_access) are represented by string tokens, port pairs by Nat pairs. -/
structure ExexArgs where
  label : String
  provider : String
  launch_cmd : PyStr
  public_ip : String
  worker_ports : Option (Nat × Nat)
  worker_port_range : Nat × Nat
  internal_port_range : Nat × Nat
  storage_access : Option (List String)
  working_dir : Option String
  engine_debug : Bool
  mock : Bool
  managed : Bool
  deriving DecidableEq

/-- Default argument values of ExtremeScaleExecutor init (exex.py lines 88
to 99). -/
def defaultExexArgs : ExexArgs :=
  { label := "ExtremeScaleExecutor"
    provider := "LocalProvider()"
    launch_cmd := PyStr.none
    public_ip := "127.0.0.1"
    worker_ports := Option.none
    worker_port_range := (54000, 55000)
    internal_port_range := (55000, 56000)
    storage_access := Option.none
    working_dir := Option.none
    engine_debug := false
    mock := false
    managed := true }

/-- Keyword arguments of the super init call forwarding to
HighThroughputExecutor (exex.py lines 101 to 112). -/
structure HtexCall where
  label : String
  provider : String
  launch_cmd : PyStr
  public_ip : String
  worker_ports : Option (Nat × Nat)
  worker_port_range : Nat × Nat
  internal_port_range : Nat × Nat
  storage_access : Option (List String)
  working_dir : Option String
  engine_debug : Bool
  mock : Bool
  managed : Bool
  deriving DecidableEq

/-- The keyword arguments actually passed in the super init call of exex.py
lines 101 to 112: each argument of the init is forwarded by name. -/
def superCallArgs (a : ExexArgs) : HtexCall :=
  { label := a.label
    provider := a.provider
    launch_cmd := a.launch_cmd
    public_ip := a.public_ip
    worker_ports := a.worker_ports
    worker_port_range := a.worker_port_range
    internal_port_range := a.internal_port_range
    storage_access := a.storage_access
    working_dir := a.working_dir
    engine_debug := a.engine_debug
    mock := a.mock
    managed := a.managed }

/-- Base classes of the class statement at exex.py line 22:
class ExtremeScaleExecutor(HighThroughputExecutor, RepresentationMixin). -/
def extremeScaleExecutorBases : List String :=
  ["HighThroughputExecutor", "RepresentationMixin"]

/-- The top level statements of the body of ExtremeScaleExecutor init
(exex.py lines 101 to 123), in source order. -/
inductive InitAction where
  | callSuperInit
  | raiseIfMpiMissing
  | logMpiVersion
  | logInitializing
  | setDefaultLaunchCmd
  deriving DecidableEq

/-- Body of ExtremeScaleExecutor init as the ordered list of its top level
statements. -/
def initBody : List InitAction :=
  [InitAction.callSuperInit, InitAction.raiseIfMpiMissing,
   InitAction.logMpiVersion, InitAction.logInitializing,
   InitAction.setDefaultLaunchCmd]

/-- Whether a statement of the init body performs task distribution work
(submitting, dispatching, batching or routing tasks). No statement of the
body does: the body only forwards configuration, checks the mpi4py import
flag, logs, and fills in the launch_cmd default. -/
def InitAction.isTaskDistribution : InitAction → Bool
  | .callSuperInit => false
  | .raiseIfMpiMissing => false
  | .logMpiVersion => false
  | .logInitializing => false
  | .setDefaultLaunchCmd => false

/-- Whether a statement of the init body passes a configuration struct to an
Interchange or Task Queue Client pair constructor. No statement does: the
only constructor invoked is the superclass init. -/
def InitAction.callsInterchangeConstructor : InitAction → Bool
  | .callSuperInit => false
  | .raiseIfMpiMissing => false
  | .logMpiVersion => false
  | .logInitializing => false
  | .setDefaultLaunchCmd => false

/-- Names bound at module level in exex.py: imported modules and names, the
_mpi_enabled flag from the import guard at lines 6 to 11, the logger
assigned at line 19, and the class itself. -/
def exexModuleGlobals : List String :=
  ["logging", "mpi4py", "_mpi_enabled", "OptionalModuleMissing",
   "HighThroughputExecutor", "RepresentationMixin", "LocalProvider",
   "logger", "ExtremeScaleExecutor"]

/-- Parameter names of ExtremeScaleExecutor init (exex.py lines 87 to 99). -/
def initParams : List String :=
  ["self", "label", "provider", "launch_cmd", "public_ip", "worker_ports",
   "worker_port_range", "internal_port_range", "storage_access",
   "working_dir", "engine_debug", "mock", "managed"]

/-- Module level global names referenced by the body of
ExtremeScaleExecutor init (exex.py lines 101 to 123). -/
def initGlobalRefs : List String :=
  ["_mpi_enabled", "OptionalModuleMissing", "mpi4py", "logger"]

/-- Attributes of the executor object that the code of exex.py touches: the
launch_cmd attribute, plus the remaining attributes set by the superclass
initializer, kept opaque as a name-value list. -/
structure ExexState where
  launch_cmd : PyStr
  attrs : List (String × String)
  deriving DecidableEq

/-- Exception raised by ExtremeScaleExecutor init when mpi4py is missing. -/
inductive ExexError where
  | optionalModuleMissing (modName : String) (msg : String)
  deriving DecidableEq

/-- The fixed launch command template assigned at exex.py lines 122 to 123. -/
def defaultLaunchCmd : String :=
  "mpiexec -np {tasks_per_node} mpi_worker_pool.py {debug} --task_url={task_url} --result_url={result_url}"

/-- Execution of ExtremeScaleExecutor init (exex.py lines 87 to 123): run
the superclass initializer on the forwarded arguments, then raise
OptionalModuleMissing when the module level _mpi_enabled flag is false,
then (two debug log lines, stateless) set the launch_cmd attribute to the
fixed template when the launch_cmd argument is falsy. The superclass
initializer is an arbitrary function, since HighThroughputExecutor is not
part of this source file. -/
def exexInit (superInit : HtexCall → ExexState) (mpiEnabled : Bool)
    (args : ExexArgs) : Except ExexError ExexState :=
  let st := superInit (superCallArgs args)
  if !mpiEnabled then
    Except.error (ExexError.optionalModuleMissing "mpi4py"
      "Cannot initialize ExtremeScaleExecutor without mpi4py")
  else if args.launch_cmd.truthy then Except.ok st
  else Except.ok { st with launch_cmd := PyStr.mk defaultLaunchCmd }

/-- Events of one run of ExtremeScaleExecutor init, in the order they
happen; used to state that the raise comes after the superclass
initializer has run. -/
inductive InitEvent where
  | superInitRan
  | raisedOptionalModuleMissing
  | setLaunchCmdDefault
  deriving DecidableEq

/-- Ordered event trace of one run of ExtremeScaleExecutor init, as a
function of the _mpi_enabled flag and the truthiness of the launch_cmd
argument: the super init call always runs first; the raise, when it
happens, aborts the rest of the body. -/
def exexInitTrace (mpiEnabled launchCmdTruthy : Bool) : List InitEvent :=
  [InitEvent.superInitRan] ++
    (if !mpiEnabled then [InitEvent.raisedOptionalModuleMissing]
     else if launchCmdTruthy then []
     else [InitEvent.setLaunchCmdDefault])

/-- C1 counterexample: the claim says constructing the configuration object
does not make it a subclass instance of the full executor implementation,
with no inheritance from the executor class; but the class statement at
exex.py line 22 lists HighThroughputExecutor, the full executor
implementation, among the base classes of ExtremeScaleExecutor. -/
theorem c1_counterexample :
    "HighThroughputExecutor" ∈ extremeScaleExecutorBases := by
  decide

/-- C1 (amended): the configuration front end is built by inheritance, not
composition: ExtremeScaleExecutor declares the full executor implementation
HighThroughputExecutor as its first base class, its init body initializes
through the superclass init call, and no statement of the body passes a
configuration struct to an Interchange or Task Queue Client pair
constructor. -/
theorem c1_inheritance_not_composition :
    extremeScaleExecutorBases.head? = some "HighThroughputExecutor"
    ∧ InitAction.callSuperInit ∈ initBody
    ∧ initBody.all (fun a => !a.callsInterchangeConstructor) = true := by
  refine ⟨rfl, by decide, by decide⟩

/-- C2: every user-facing parameter of ExtremeScaleExecutor init is
forwarded unchanged, by name, to the superclass init call of exex.py lines
101 to 112, and no statement of the init body performs task distribution
logic of its own. -/
theorem c2_params_forwarded_unchanged (a : ExexArgs) :
    (superCallArgs a).label = a.label
    ∧ (superCallArgs a).provider = a.provider
    ∧ (superCallArgs a).launch_cmd = a.launch_cmd
    ∧ (superCallArgs a).public_ip = a.public_ip
    ∧ (superCallArgs a).worker_ports = a.worker_ports
    ∧ (superCallArgs a).worker_port_range = a.worker_port_range
    ∧ (superCallArgs a).internal_port_range = a.internal_port_range
    ∧ (superCallArgs a).storage_access = a.storage_access
    ∧ (superCallArgs a).working_dir = a.working_dir
    ∧ (superCallArgs a).engine_debug = a.engine_debug
    ∧ (superCallArgs a).mock = a.mock
    ∧ (superCallArgs a).managed = a.managed
    ∧ initBody.all (fun act => !act.isTaskDistribution) = true := by
  refine ⟨rfl, rfl, rfl, rfl, rfl, rfl, rfl, rfl, rfl, rfl, rfl, rfl, by decide⟩

/-- C3 counterexample: the claim says no component accesses shared global
module level state implicitly; but the logger is a name bound at module
level in exex.py (line 19), it is referenced directly by the body of
ExtremeScaleExecutor init (lines 118 to 120), and it is not among the
parameters of the init, so it is not passed or injected. -/
theorem c3_counterexample :
    "logger" ∈ exexModuleGlobals
    ∧ "logger" ∈ initGlobalRefs
    ∧ "logger" ∉ initParams := by
  decide

/-- C3 (amended): the front end accesses shared module level state
implicitly: both the logger created at import time at line 19 and the
_mpi_enabled flag set by the import guard at lines 6 to 11 are module level
globals referenced directly by the body of ExtremeScaleExecutor init
without being parameters of it. -/
theorem c3_module_level_globals :
    ("logger" ∈ exexModuleGlobals
      ∧ "logger" ∈ initGlobalRefs
      ∧ "logger" ∉ initParams)
    ∧ ("_mpi_enabled" ∈ exexModuleGlobals
      ∧ "_mpi_enabled" ∈ initGlobalRefs
      ∧ "_mpi_enabled" ∉ initParams) := by
  decide

/-- C9: when mpi4py could not be imported at module load time, the init
raises OptionalModuleMissing, and the raise happens after the superclass
initializer has run; when mpi4py is importable, the init of this class
raises nothing and returns a state. -/
theorem c9_mpi_check (superInit : HtexCall → ExexState) (args : ExexArgs)
    (b : Bool) :
    (exexInit superInit false args
        = Except.error (ExexError.optionalModuleMissing "mpi4py"
            "Cannot initialize ExtremeScaleExecutor without mpi4py")
      ∧ exexInitTrace false b
        = [InitEvent.superInitRan, InitEvent.raisedOptionalModuleMissing])
    ∧ ∃ st, exexInit superInit true args = Except.ok st := by
  refine ⟨⟨rfl, rfl⟩, ?_⟩
  cases h : args.launch_cmd.truthy with
  | false =>
    exact ⟨{ superInit (superCallArgs args) with
              launch_cmd := PyStr.mk defaultLaunchCmd },
           by unfold exexInit; simp [h]⟩
  | true =>
    exact ⟨superInit (superCallArgs args), by unfold exexInit; simp [h]⟩

/-- C10: when the launch_cmd argument is falsy, the init returns the state
left by the superclass initializer with the launch_cmd attribute replaced
by the fixed template string; when the launch_cmd argument is truthy, the
init returns exactly the state the superclass initializer set from the
forwarded arguments. -/
theorem c10_launch_cmd_default (superInit : HtexCall → ExexState)
    (args : ExexArgs) :
    (args.launch_cmd.truthy = false →
      exexInit superInit true args
        = Except.ok { superInit (superCallArgs args) with
            launch_cmd := PyStr.mk defaultLaunchCmd })
    ∧ (args.launch_cmd.truthy = true →
      exexInit superInit true args
        = Except.ok (superInit (superCallArgs args))) := by
  constructor
  · intro h
    unfold exexInit
    simp [h]
  · intro h
    unfold exexInit
    simp [h]

/-- C10 witness: at the default arguments (launch_cmd None, falsy) and a
concrete superclass initializer, the resulting launch_cmd attribute is the
fixed template. -/
theorem c10_launch_cmd_default_witness :
    exexInit (fun _ => ⟨PyStr.none, []⟩) true defaultExexArgs
      = Except.ok ⟨PyStr.mk defaultLaunchCmd, []⟩ :=
  (c10_launch_cmd_default (fun _ => ⟨PyStr.none, []⟩) defaultExexArgs).1 rfl

end ParslExex

namespace ParslCore

/-
Part 2: model of the task distribution and result routing core, modelled
from the design document (sections 3, 4, 5 and 7), since the Interchange,
Task Queue Client and Result Router code is not part of the visible source.
State is kept in association lists over Nat keys; the helper functions and
lemmas below are the bookkeeping layer.
-/

/-- Lookup of the first value bound to a key in an association list. -/
def alookup {β : Type} : Nat → List (Nat × β) → Option β
  | _, [] => Option.none
  | k, p :: t => if p.1 = k then some p.2 else alookup k t

/-- Update: rebind every entry with the given key to the given value,
leaving all other entries unchanged (keys are untouched). -/
def setVal {β : Type} (k : Nat) (v : β) (l : List (Nat × β)) :
    List (Nat × β) :=
  l.map (fun p => if p.1 = k then (k, v) else p)

/-- Update a whole list of keys to the same value. -/
def setMany {β : Type} (ks : List Nat) (v : β) (l : List (Nat × β)) :
    List (Nat × β) :=
  ks.foldl (fun acc k => setVal k v acc) l

/-- Remove the first entry with the given key. -/
def aeraseKey {β : Type} : Nat → List (Nat × β) → List (Nat × β)
  | _, [] => []
  | k, p :: t => if p.1 = k then t else p :: aeraseKey k t

/-- Remove the first occurrence of an element from a plain list. -/
def lerase : Nat → List Nat → List Nat
  | _, [] => []
  | k, x :: t => if x = k then t else x :: lerase k t

/-- Key list of an association list. -/
def keysOf {β : Type} (l : List (Nat × β)) : List Nat :=
  l.map Prod.fst

/-- An association list has no repeated keys. -/
def keysNodup {β : Type} (l : List (Nat × β)) : Prop :=
  (keysOf l).Nodup

theorem alookup_eq_none {β : Type} {k : Nat} {l : List (Nat × β)}
    (h : k ∉ keysOf l) : alookup k l = Option.none := by
  induction l with
  | nil => rfl
  | cons p t ih =>
    have h1 : ¬ p.1 = k := fun he =>
      h (by rw [keysOf, List.map_cons, he]; exact List.mem_cons_self _ _)
    have h2 : k ∉ keysOf t := fun hk =>
      h (by rw [keysOf, List.map_cons]; exact List.mem_cons_of_mem _ hk)
    simp only [alookup, if_neg h1]
    exact ih h2

theorem alookup_mem_keys {β : Type} {k : Nat} {l : List (Nat × β)} {v : β}
    (h : alookup k l = some v) : k ∈ keysOf l := by
  by_contra hk
  rw [alookup_eq_none hk] at h
  exact Option.noConfusion h

theorem alookup_mem {β : Type} {k : Nat} {l : List (Nat × β)} {v : β}
    (h : alookup k l = some v) : (k, v) ∈ l := by
  induction l with
  | nil => exact Option.noConfusion h
  | cons p t ih =>
    by_cases hk : p.1 = k
    · simp only [alookup, if_pos hk] at h
      have hv : p.2 = v := Option.some.inj h
      have hp : p = (k, v) := by
        cases p
        simp only at hk hv
        rw [hk, hv]
      exact List.mem_cons.mpr (Or.inl hp.symm)
    · simp only [alookup, if_neg hk] at h
      exact List.mem_cons_of_mem _ (ih h)

theorem alookup_setVal {β : Type} (k : Nat) (v : β) (l : List (Nat × β))
    (t : Nat) :
    alookup t (setVal k v l)
      = if t = k then (alookup k l).map (fun _ => v) else alookup t l := by
  induction l with
  | nil => by_cases h : t = k <;> simp [setVal, alookup, h]
  | cons p r ih =>
    have hset : setVal k v (p :: r)
        = (if p.1 = k then (k, v) else p) :: setVal k v r := rfl
    by_cases hpk : p.1 = k
    · by_cases htk : t = k
      · subst htk
        rw [hset, if_pos hpk]
        simp [alookup, hpk]
      · rw [hset, if_pos hpk]
        have h1 : ¬ k = t := fun he => htk he.symm
        have h2 : ¬ p.1 = t := fun he => htk (he ▸ hpk)
        show (if k = t then some v else alookup t (setVal k v r))
            = if t = k then (alookup k (p :: r)).map (fun _ => v)
              else alookup t (p :: r)
        rw [if_neg h1, ih, if_neg htk, if_neg htk]
        show alookup t r = alookup t (p :: r)
        rw [show alookup t (p :: r)
            = if p.1 = t then some p.2 else alookup t r from rfl, if_neg h2]
    · by_cases htk : t = k
      · subst htk
        rw [hset, if_neg hpk]
        show (if p.1 = t then some p.2 else alookup t (setVal t v r))
            = if t = t then (alookup t (p :: r)).map (fun _ => v)
              else alookup t (p :: r)
        rw [if_neg hpk, ih, if_pos rfl, if_pos rfl,
          show alookup t (p :: r)
            = if p.1 = t then some p.2 else alookup t r from rfl,
          if_neg hpk]
      · rw [hset, if_neg hpk]
        show (if p.1 = t then some p.2 else alookup t (setVal k v r))
            = if t = k then (alookup k (p :: r)).map (fun _ => v)
              else alookup t (p :: r)
        rw [ih, if_neg htk, if_neg htk]
        rfl

theorem alookup_setMany {β : Type} (ks : List Nat) (v : β)
    (l : List (Nat × β)) (t : Nat) :
    alookup t (setMany ks v l)
      = if t ∈ ks then (alookup t l).map (fun _ => v) else alookup t l := by
  induction ks generalizing l with
  | nil => simp [setMany]
  | cons k r ih =>
    have hstep : setMany (k :: r) v l = setMany r v (setVal k v l) := rfl
    rw [hstep, ih]
    by_cases htr : t ∈ r
    · simp only [if_pos htr, List.mem_cons, Or.inr htr, if_pos]
      rw [alookup_setVal]
      by_cases htk : t = k
      · subst htk
        cases alookup t l <;> simp
      · simp [htk]
    · by_cases htk : t = k
      · subst htk
        simp [htr, alookup_setVal]
      · simp [htr, htk, alookup_setVal]

theorem keysOf_setVal {β : Type} (k : Nat) (v : β) (l : List (Nat × β)) :
    keysOf (setVal k v l) = keysOf l := by
  induction l with
  | nil => rfl
  | cons p t ih =>
    have hset : setVal k v (p :: t)
        = (if p.1 = k then (k, v) else p) :: setVal k v t := rfl
    by_cases h : p.1 = k
    · rw [hset, if_pos h]
      show k :: keysOf (setVal k v t) = p.1 :: keysOf t
      rw [ih, h]
    · rw [hset, if_neg h]
      show p.1 :: keysOf (setVal k v t) = p.1 :: keysOf t
      rw [ih]

theorem keysOf_setMany {β : Type} (ks : List Nat) (v : β)
    (l : List (Nat × β)) : keysOf (setMany ks v l) = keysOf l := by
  induction ks generalizing l with
  | nil => rfl
  | cons k r ih =>
    have hstep : setMany (k :: r) v l = setMany r v (setVal k v l) := rfl
    rw [hstep, ih, keysOf_setVal]

theorem mem_aeraseKey {β : Type} {k : Nat} {l : List (Nat × β)} {p : Nat × β}
    (h : p ∈ aeraseKey k l) : p ∈ l := by
  induction l with
  | nil => exact absurd h (List.not_mem_nil p)
  | cons q t ih =>
    by_cases hq : q.1 = k
    · simp only [aeraseKey, if_pos hq] at h
      exact List.mem_cons_of_mem _ h
    · simp only [aeraseKey, if_neg hq, List.mem_cons] at h
      rcases h with h | h
      · exact h ▸ List.mem_cons_self q t
      · exact List.mem_cons_of_mem _ (ih h)

theorem keysOf_aeraseKey_sublist {β : Type} (k : Nat) (l : List (Nat × β)) :
    (keysOf (aeraseKey k l)).Sublist (keysOf l) := by
  induction l with
  | nil => simp [aeraseKey, keysOf]
  | cons q t ih =>
    by_cases hq : q.1 = k
    · simp only [aeraseKey, if_pos hq, keysOf, List.map_cons]
      exact List.sublist_cons_of_sublist _ (List.Sublist.refl _)
    · simp only [aeraseKey, if_neg hq, keysOf, List.map_cons]
      exact List.Sublist.cons₂ _ ih

theorem keysNodup_aeraseKey {β : Type} {k : Nat} {l : List (Nat × β)}
    (h : keysNodup l) : keysNodup (aeraseKey k l) :=
  (keysOf_aeraseKey_sublist k l).nodup h

theorem alookup_aeraseKey_self {β : Type} {k : Nat} {l : List (Nat × β)}
    (h : keysNodup l) : alookup k (aeraseKey k l) = Option.none := by
  induction l with
  | nil => rfl
  | cons q t ih =>
    by_cases hq : q.1 = k
    · simp only [aeraseKey, if_pos hq]
      apply alookup_eq_none
      subst hq
      simpa [keysNodup, keysOf] using (List.nodup_cons.mp h).1
    · simp only [aeraseKey, if_neg hq, alookup, if_neg hq]
      exact ih (List.nodup_cons.mp h).2

theorem alookup_aeraseKey_ne {β : Type} {k t : Nat} (l : List (Nat × β))
    (h : t ≠ k) : alookup t (aeraseKey k l) = alookup t l := by
  induction l with
  | nil => rfl
  | cons q r ih =>
    by_cases hq : q.1 = k
    · simp only [aeraseKey, if_pos hq, alookup,
        if_neg (fun he : q.1 = t => h ((he ▸ hq).symm ▸ rfl))]
    · simp only [aeraseKey, if_neg hq, alookup]
      by_cases hqt : q.1 = t
      · simp [hqt]
      · simp [hqt, ih]

theorem mem_lerase {k t : Nat} {l : List Nat} (h : t ∈ lerase k l) :
    t ∈ l := by
  induction l with
  | nil => exact absurd h (List.not_mem_nil t)
  | cons x r ih =>
    by_cases hx : x = k
    · simp only [lerase, if_pos hx] at h
      exact List.mem_cons_of_mem _ h
    · simp only [lerase, if_neg hx, List.mem_cons] at h
      rcases h with h | h
      · exact h ▸ List.mem_cons_self x r
      · exact List.mem_cons_of_mem _ (ih h)

theorem lerase_sublist (k : Nat) (l : List Nat) :
    (lerase k l).Sublist l := by
  induction l with
  | nil => simp [lerase]
  | cons x r ih =>
    by_cases hx : x = k
    · simp only [lerase, if_pos hx]
      exact List.sublist_cons_of_sublist _ (List.Sublist.refl _)
    · simp only [lerase, if_neg hx]
      exact List.Sublist.cons₂ _ ih

theorem lerase_nodup {k : Nat} {l : List Nat} (h : l.Nodup) :
    (lerase k l).Nodup :=
  (lerase_sublist k l).nodup h

theorem not_mem_lerase_self {k : Nat} {l : List Nat} (h : l.Nodup) :
    k ∉ lerase k l := by
  induction l with
  | nil => simp [lerase]
  | cons x r ih =>
    by_cases hx : x = k
    · simp only [lerase, if_pos hx]
      intro hk
      exact (List.nodup_cons.mp h).1 (hx ▸ hk)
    · simp only [lerase, if_neg hx, List.mem_cons]
      rintro (he | hk)
      · exact hx he.symm
      · exact ih (List.nodup_cons.mp h).2 hk

theorem length_lerase_le (k : Nat) (l : List Nat) :
    (lerase k l).length ≤ l.length :=
  (lerase_sublist k l).length_le

/-- Task identifier, assigned at submission time, never reused. -/
abbrev TaskId := Nat

/-- Worker identifier. -/
abbrev WorkerId := Nat

/-- Modelled from the spec: state of one Task Envelope (data model, section
3): Queued, Dispatched to a worker, Completed, or Failed. The
assigned_worker field of the envelope is carried by the dispatched state. -/
inductive TaskState where
  | queued
  | dispatched (w : WorkerId)
  | completed
  | failed
  deriving DecidableEq

/-- Modelled from the spec: terminal resolution of a Future (sections 3 and
7): successful result, application exception, cancellation, or one of the
infrastructure error kinds. -/
inductive Outcome where
  | success
  | taskException
  | cancelled
  | connectionLost
  | workerLost
  deriving DecidableEq

/-- Modelled from the spec: client side Future state: a result slot that is
empty until resolved, plus the resolution flag, collapsed into pending
versus resolved-with-outcome. -/
inductive FutureState where
  | pending
  | resolved (o : Outcome)
  deriving DecidableEq

/-- Modelled from the spec: Worker Registration (data model, section 3):
capacity (max concurrent tasks) and in_flight_tasks (the task ids currently
assigned). The heartbeat clock is abstracted away; the watchdog step below
may fire on any worker, as the timeout is a real time condition. -/
structure Worker where
  capacity : Nat
  inFlight : List TaskId
  deriving DecidableEq

/-- Modelled from the spec: combined state of the Task Queue Client, the
Result Router bookkeeping and the Interchange (sections 3 to 5). The
transport channels are abstracted: a result message may be delivered to the
Result Router at any time with any task id, which over-approximates
duplicate and stale deliveries. Fields:
nextId is the fresh task id counter; pending is the Interchange FIFO queue
of queued task ids; tasks maps each created task id to its envelope state;
workers is the registration table in registration order; futures maps task
ids to client side Future states; mapping is the client side table of task
ids with a registered unresolved Future; queueLimit is the configured
in-flight submission limit and batchSize the configured dispatch batch
bound. -/
structure CoreState where
  nextId : Nat
  pending : List TaskId
  tasks : List (TaskId × TaskState)
  workers : List (WorkerId × Worker)
  futures : List (TaskId × FutureState)
  mapping : List TaskId
  queueLimit : Nat
  batchSize : Nat
  deriving DecidableEq

/-- Modelled from the spec: initial state of a session: no tasks, no
workers, given configuration parameters. -/
def initState (queueLimit batchSize : Nat) : CoreState :=
  { nextId := 0
    pending := []
    tasks := []
    workers := []
    futures := []
    mapping := []
    queueLimit := queueLimit
    batchSize := batchSize }

/-- Error returned by submit under backpressure (section 7). -/
inductive SubmitErr where
  | queueFull
  deriving DecidableEq

/-- Modelled from the spec: submit (section 4.1): once the configured
in-flight limit is reached the submission fails with QueueFull; otherwise a
fresh task id is drawn, a Task Envelope in state Queued is appended to the
pending queue, a pending Future is created and the id is registered in the
mapping table, and the id is returned. -/
def submit (s : CoreState) : Except SubmitErr (CoreState × TaskId) :=
  if s.queueLimit ≤ s.mapping.length then Except.error SubmitErr.queueFull
  else Except.ok
    ({ s with
        nextId := s.nextId + 1
        pending := s.pending ++ [s.nextId]
        tasks := (s.nextId, TaskState.queued) :: s.tasks
        futures := (s.nextId, FutureState.pending) :: s.futures
        mapping := s.nextId :: s.mapping },
     s.nextId)

/-- Submission as a state step: a rejected submission leaves the state
unchanged. -/
def submitStep (s : CoreState) : CoreState :=
  match submit s with
  | Except.error _ => s
  | Except.ok (s2, _) => s2

/-- Spare capacity of a worker. -/
def spareOf (w : Worker) : Nat := w.capacity - w.inFlight.length

/-- Modelled from the spec: greedy least-loaded worker selection (section
4.3): among workers with spare capacity, pick the one with the most spare
capacity, ties broken by earliest registration (list order is registration
order). Returns none when no worker has spare capacity. -/
def selectWorker : List (WorkerId × Worker) → Option (WorkerId × Worker)
  | [] => Option.none
  | p :: rest =>
    if 0 < spareOf p.2 then
      match selectWorker rest with
      | Option.none => some p
      | some q => if spareOf p.2 < spareOf q.2 then some q else some p
    else selectWorker rest

/-- Modelled from the spec: one round of the dispatch loop (section 4.3):
select the least-loaded worker with spare capacity, pop up to batchSize
tasks from the front of the pending queue, bounded by the remaining
capacity of that worker, mark them Dispatched and add them to the in
flight set of the worker. -/
def dispatchStep (s : CoreState) : CoreState :=
  match selectWorker s.workers with
  | Option.none => s
  | some (wid, w) =>
    if (s.pending.take (min s.batchSize (spareOf w))).isEmpty then s
    else
      { s with
          pending := s.pending.drop (min s.batchSize (spareOf w))
          workers := setVal wid
            ⟨w.capacity,
             w.inFlight ++ s.pending.take (min s.batchSize (spareOf w))⟩
            s.workers
          tasks := setMany (s.pending.take (min s.batchSize (spareOf w)))
            (TaskState.dispatched wid) s.tasks }

/-- Modelled from the spec: Interchange egress on receiving a result or an
exception for a task id (section 4.4): remove the task from the in flight
set of the owning worker and mark the envelope Completed (result) or
Failed (exception). Messages for tasks that are not dispatched are
ignored. -/
def egressStep (t : TaskId) (ok : Bool) (s : CoreState) : CoreState :=
  match alookup t s.tasks with
  | some (TaskState.dispatched wid) =>
    match alookup wid s.workers with
    | some w =>
      { s with
          workers := setVal wid ⟨w.capacity, lerase t w.inFlight⟩ s.workers
          tasks := setVal t (if ok then TaskState.completed
                             else TaskState.failed) s.tasks }
    | Option.none => s
  | _ => s

/-- Modelled from the spec: the Result Router consuming one inbound item
(section 4.2): look the task id up in the mapping table; if found, resolve
the Future and remove the mapping entry; if not found (duplicate delivery
or stale id) the item is dropped and the state is unchanged. -/
def routerStep (t : TaskId) (o : Outcome) (s : CoreState) : CoreState :=
  if t ∈ s.mapping then
    { s with
        futures := setVal t (FutureState.resolved o) s.futures
        mapping := lerase t s.mapping }
  else s

/-- Modelled from the spec: registration of a new worker connection
(section 4.4): a record with the given capacity and an empty in flight set
is appended to the registration table; an id already registered is left
untouched. -/
def registerStep (wid : WorkerId) (cap : Nat) (s : CoreState) : CoreState :=
  match alookup wid s.workers with
  | some _ => s
  | Option.none => { s with workers := s.workers ++ [(wid, ⟨cap, []⟩)] }

/-- Modelled from the spec: the watchdog declaring a worker dead (section
4.4): every task in its in flight set is reset to Queued and pushed back to
the front of the pending queue, and the Worker Registration is removed. -/
def watchdogStep (wid : WorkerId) (s : CoreState) : CoreState :=
  match alookup wid s.workers with
  | some w =>
    { s with
        workers := aeraseKey wid s.workers
        pending := w.inFlight ++ s.pending
        tasks := setMany w.inFlight TaskState.queued s.tasks }
  | Option.none => s

/-- Modelled from the spec: client cancellation of a Future before it
resolves (section 5): a still Queued task is removed from the pending queue
and its envelope bookkeeping is destroyed; a Dispatched task keeps
executing but its eventual result will be discarded. Either way the Future
is resolved Cancelled immediately and the mapping entry removed. A task id
with no unresolved mapping entry is not cancellable. -/
def cancelStep (t : TaskId) (s : CoreState) : CoreState :=
  if t ∈ s.mapping then
    match alookup t s.tasks with
    | some TaskState.queued =>
      { s with
          pending := lerase t s.pending
          tasks := aeraseKey t s.tasks
          futures := setVal t (FutureState.resolved Outcome.cancelled)
            s.futures
          mapping := lerase t s.mapping }
    | some (TaskState.dispatched _) =>
      { s with
          futures := setVal t (FutureState.resolved Outcome.cancelled)
            s.futures
          mapping := lerase t s.mapping }
    | _ => s
  else s

/-- Resolution applied to every Future on connection teardown: pending
Futures get ConnectionLost, resolved ones are untouched. -/
def resolveOnTeardown : FutureState → FutureState
  | FutureState.pending => FutureState.resolved Outcome.connectionLost
  | FutureState.resolved o => FutureState.resolved o

/-- Modelled from the spec: teardown of the inbound channel (section 4.2):
every still unresolved Future is resolved with a ConnectionLost error, and
the mapping table is cleared; no Future may be left pending forever. -/
def teardownStep (s : CoreState) : CoreState :=
  { s with
      futures := s.futures.map (fun p => (p.1, resolveOnTeardown p.2))
      mapping := [] }

/-- Labels naming which component takes a step. -/
inductive Label where
  | submit
  | dispatch
  | egress
  | router
  | register
  | watchdog
  | cancel
  | teardown
  deriving DecidableEq

/-- Modelled from the spec: one atomic step of the system, labelled by the
component that takes it (section 5: the components run concurrently and
their effects interleave; each step here is one critical section under the
serialization discipline of section 5). Message deliveries (egress, router)
carry arbitrary task ids and outcomes, over-approximating the channels. -/
inductive Step : Label → CoreState → CoreState → Prop where
  | submit (s : CoreState) : Step Label.submit s (submitStep s)
  | dispatch (s : CoreState) : Step Label.dispatch s (dispatchStep s)
  | egress (t : TaskId) (ok : Bool) (s : CoreState) :
      Step Label.egress s (egressStep t ok s)
  | router (t : TaskId) (o : Outcome) (s : CoreState) :
      Step Label.router s (routerStep t o s)
  | register (wid : WorkerId) (cap : Nat) (s : CoreState) :
      Step Label.register s (registerStep wid cap s)
  | watchdog (wid : WorkerId) (s : CoreState) :
      Step Label.watchdog s (watchdogStep wid s)
  | cancel (t : TaskId) (s : CoreState) :
      Step Label.cancel s (cancelStep t s)
  | teardown (s : CoreState) : Step Label.teardown s (teardownStep s)

/-- States reachable from an initial state by any interleaving of steps. -/
inductive Reachable : CoreState → Prop where
  | init (queueLimit batchSize : Nat) :
      Reachable (initState queueLimit batchSize)
  | step {s s2 : CoreState} {l : Label} :
      Reachable s → Step l s s2 → Reachable s2

theorem mem_keysOf {β : Type} {k : Nat} {v : β} {l : List (Nat × β)}
    (h : (k, v) ∈ l) : k ∈ keysOf l := by
  induction l with
  | nil => exact absurd h (List.not_mem_nil _)
  | cons p t ih =>
    rcases List.mem_cons.mp h with h | h
    · rw [keysOf, List.map_cons, ← h]
      exact List.mem_cons_self _ _
    · rw [keysOf, List.map_cons]
      exact List.mem_cons_of_mem _ (ih h)

theorem exists_alookup_of_mem_keys {β : Type} {k : Nat} {l : List (Nat × β)}
    (h : k ∈ keysOf l) : ∃ v, alookup k l = some v := by
  induction l with
  | nil => exact absurd h (List.not_mem_nil _)
  | cons p t ih =>
    by_cases hp : p.1 = k
    · exact ⟨p.2, by
        show (if p.1 = k then some p.2 else alookup k t) = some p.2
        rw [if_pos hp]⟩
    · rw [keysOf, List.map_cons, List.mem_cons] at h
      rcases h with h | h
      · exact absurd h.symm hp
      · rcases ih h with ⟨v, hv⟩
        exact ⟨v, by
          show (if p.1 = k then some p.2 else alookup k t) = some v
          rw [if_neg hp]
          exact hv⟩

theorem mem_alookup_of_keysNodup {β : Type} {k : Nat} {v : β}
    {l : List (Nat × β)} (hn : keysNodup l) (h : (k, v) ∈ l) :
    alookup k l = some v := by
  induction l with
  | nil => exact absurd h (List.not_mem_nil _)
  | cons p t ih =>
    have hkeys : keysOf (p :: t) = p.1 :: keysOf t := rfl
    rw [keysNodup, hkeys] at hn
    have hn2 := List.nodup_cons.mp hn
    rcases List.mem_cons.mp h with h | h
    · show (if p.1 = k then some p.2 else alookup k t) = some v
      rw [← h]
      simp
    · have hp : ¬ p.1 = k := fun he => hn2.1 (he ▸ mem_keysOf h)
      show (if p.1 = k then some p.2 else alookup k t) = some v
      rw [if_neg hp]
      exact ih hn2.2 h

theorem alookup_append_left {β : Type} {k : Nat} {v : β}
    {l1 : List (Nat × β)} (l2 : List (Nat × β))
    (h : alookup k l1 = some v) : alookup k (l1 ++ l2) = some v := by
  induction l1 with
  | nil => exact Option.noConfusion h
  | cons p t ih =>
    have hh : (if p.1 = k then some p.2 else alookup k t) = some v := h
    by_cases hp : p.1 = k
    · rw [if_pos hp] at hh
      show (if p.1 = k then some p.2 else alookup k (t ++ l2)) = some v
      rw [if_pos hp]
      exact hh
    · rw [if_neg hp] at hh
      show (if p.1 = k then some p.2 else alookup k (t ++ l2)) = some v
      rw [if_neg hp]
      exact ih hh

theorem alookup_append_right {β : Type} {k : Nat} {l1 : List (Nat × β)}
    (l2 : List (Nat × β)) (h : alookup k l1 = Option.none) :
    alookup k (l1 ++ l2) = alookup k l2 := by
  induction l1 with
  | nil => rfl
  | cons p t ih =>
    have hh : (if p.1 = k then some p.2 else alookup k t) = Option.none := h
    by_cases hp : p.1 = k
    · rw [if_pos hp] at hh
      exact Option.noConfusion hh
    · rw [if_neg hp] at hh
      show (if p.1 = k then some p.2 else alookup k (t ++ l2)) = alookup k l2
      rw [if_neg hp]
      exact ih hh

theorem alookup_mapVal {β γ : Type} (g : β → γ) (k : Nat)
    (l : List (Nat × β)) :
    alookup k (l.map (fun p => (p.1, g p.2))) = (alookup k l).map g := by
  induction l with
  | nil => rfl
  | cons p t ih =>
    by_cases hp : p.1 = k
    · show (if p.1 = k then some (g p.2)
          else alookup k (t.map (fun p => (p.1, g p.2))))
        = (if p.1 = k then some p.2 else alookup k t).map g
      rw [if_pos hp, if_pos hp]
      rfl
    · show (if p.1 = k then some (g p.2)
          else alookup k (t.map (fun p => (p.1, g p.2))))
        = (if p.1 = k then some p.2 else alookup k t).map g
      rw [if_neg hp, if_neg hp, ih]

theorem fresh_none {β : Type} {l : List (Nat × β)} {n : Nat}
    (h : ∀ t v, alookup t l = some v → t < n) :
    alookup n l = Option.none := by
  cases hm : alookup n l with
  | none => rfl
  | some v => exact absurd (h n v hm) (lt_irrefl n)

theorem selectWorker_mem {ws : List (WorkerId × Worker)}
    {p : WorkerId × Worker} (h : selectWorker ws = some p) :
    p ∈ ws ∧ 0 < spareOf p.2 := by
  induction ws with
  | nil => exact Option.noConfusion h
  | cons q rest ih =>
    by_cases hq : 0 < spareOf q.2
    · rw [selectWorker, if_pos hq] at h
      cases hr : selectWorker rest with
      | none =>
        rw [hr] at h
        have hqp : q = p := Option.some.inj h
        exact ⟨List.mem_cons.mpr (Or.inl hqp.symm), hqp ▸ hq⟩
      | some r =>
        rw [hr] at h
        have h2 : (if spareOf q.2 < spareOf r.2 then some r else some q)
            = some p := h
        by_cases hlt : spareOf q.2 < spareOf r.2
        · rw [if_pos hlt] at h2
          have hrp : r = p := Option.some.inj h2
          rcases ih (hrp ▸ hr) with ⟨hm, hs⟩
          exact ⟨List.mem_cons_of_mem _ hm, hs⟩
        · rw [if_neg hlt] at h2
          have hqp : q = p := Option.some.inj h2
          exact ⟨List.mem_cons.mpr (Or.inl hqp.symm), hqp ▸ hq⟩
    · rw [selectWorker, if_neg hq] at h
      rcases ih h with ⟨hm, hs⟩
      exact ⟨List.mem_cons_of_mem _ hm, hs⟩

/-- The bookkeeping invariant of the core, modelled from the data model
section of the design document: ids are fresh below the counter, the
tables have no repeated keys, the pending queue holds exactly Queued
envelopes, each in flight set holds Dispatched envelopes of that worker
within capacity, and the client mapping table holds ids of pending
Futures. -/
structure Inv (s : CoreState) : Prop where
  tNodup : keysNodup s.tasks
  tFresh : ∀ t v, alookup t s.tasks = some v → t < s.nextId
  fFresh : ∀ t v, alookup t s.futures = some v → t < s.nextId
  wNodup : keysNodup s.workers
  pNodup : s.pending.Nodup
  iNodup : ∀ wid w, alookup wid s.workers = some w → w.inFlight.Nodup
  capBound : ∀ wid w, alookup wid s.workers = some w →
    w.inFlight.length ≤ w.capacity
  pendingQueued : ∀ t ∈ s.pending, alookup t s.tasks = some TaskState.queued
  inFlightDispatched : ∀ wid w, alookup wid s.workers = some w →
    ∀ t ∈ w.inFlight, alookup t s.tasks = some (TaskState.dispatched wid)
  mapNodup : s.mapping.Nodup
  mapPending : ∀ t ∈ s.mapping,
    alookup t s.futures = some FutureState.pending

theorem inv_initState (queueLimit batchSize : Nat) :
    Inv (initState queueLimit batchSize) := by
  refine ⟨?_, ?_, ?_, ?_, ?_, ?_, ?_, ?_, ?_, ?_, ?_⟩
  · exact List.nodup_nil
  · intro t v h
    exact Option.noConfusion h
  · intro t v h
    exact Option.noConfusion h
  · exact List.nodup_nil
  · exact List.nodup_nil
  · intro wid w h
    exact Option.noConfusion h
  · intro wid w h
    exact Option.noConfusion h
  · intro t h
    exact absurd h (List.not_mem_nil _)
  · intro wid w h
    exact Option.noConfusion h
  · exact List.nodup_nil
  · intro t h
    exact absurd h (List.not_mem_nil _)

theorem inv_submitStep {s : CoreState} (hi : Inv s) : Inv (submitStep s) := by
  unfold submitStep submit
  by_cases hfull : s.queueLimit ≤ s.mapping.length
  · rw [if_pos hfull]
    exact hi
  · rw [if_neg hfull]
    have hfn_t : alookup s.nextId s.tasks = Option.none :=
      fresh_none hi.tFresh
    have hfn_f : alookup s.nextId s.futures = Option.none :=
      fresh_none hi.fFresh
    have hnot_kt : s.nextId ∉ keysOf s.tasks := by
      intro hk
      rcases exists_alookup_of_mem_keys hk with ⟨v, hv⟩
      rw [hfn_t] at hv
      exact Option.noConfusion hv
    have hnp : s.nextId ∉ s.pending := by
      intro hp
      have hq := hi.pendingQueued _ hp
      rw [hfn_t] at hq
      exact Option.noConfusion hq
    have hnm : s.nextId ∉ s.mapping := by
      intro hm
      have hq := hi.mapPending _ hm
      rw [hfn_f] at hq
      exact Option.noConfusion hq
    refine ⟨?_, ?_, ?_, hi.wNodup, ?_, hi.iNodup, hi.capBound, ?_, ?_, ?_, ?_⟩
    · show ((s.nextId :: keysOf s.tasks).Nodup : Prop)
      exact List.nodup_cons.mpr ⟨hnot_kt, hi.tNodup⟩
    · intro t v h
      have h2 : (if s.nextId = t then some TaskState.queued
          else alookup t s.tasks) = some v := h
      by_cases hnt : s.nextId = t
      · exact hnt ▸ Nat.lt_succ_self s.nextId
      · rw [if_neg hnt] at h2
        exact Nat.lt_succ_of_lt (hi.tFresh t v h2)
    · intro t v h
      have h2 : (if s.nextId = t then some FutureState.pending
          else alookup t s.futures) = some v := h
      by_cases hnt : s.nextId = t
      · exact hnt ▸ Nat.lt_succ_self s.nextId
      · rw [if_neg hnt] at h2
        exact Nat.lt_succ_of_lt (hi.fFresh t v h2)
    · refine List.nodup_append.mpr ⟨hi.pNodup, List.nodup_singleton _, ?_⟩
      intro a ha hb
      rw [List.mem_singleton] at hb
      exact hnp (hb ▸ ha)
    · intro t ht
      rcases List.mem_append.mp ht with ht | ht
      · have hne : ¬ s.nextId = t := fun he => hnp (he ▸ ht)
        show (if s.nextId = t then some TaskState.queued
            else alookup t s.tasks) = some TaskState.queued
        rw [if_neg hne]
        exact hi.pendingQueued t ht
      · rw [List.mem_singleton] at ht
        show (if s.nextId = t then some TaskState.queued
            else alookup t s.tasks) = some TaskState.queued
        rw [if_pos ht.symm]
    · intro wid w hw t ht
      have hd := hi.inFlightDispatched wid w hw t ht
      have hne : ¬ s.nextId = t := fun he => by
        rw [← he, hfn_t] at hd
        exact Option.noConfusion hd
      show (if s.nextId = t then some TaskState.queued
          else alookup t s.tasks) = some (TaskState.dispatched wid)
      rw [if_neg hne]
      exact hd
    · exact List.nodup_cons.mpr ⟨hnm, hi.mapNodup⟩
    · intro t ht
      rcases List.mem_cons.mp ht with ht | ht
      · show (if s.nextId = t then some FutureState.pending
            else alookup t s.futures) = some FutureState.pending
        rw [if_pos ht.symm]
      · have hne : ¬ s.nextId = t := fun he => hnm (he ▸ ht)
        show (if s.nextId = t then some FutureState.pending
            else alookup t s.futures) = some FutureState.pending
        rw [if_neg hne]
        exact hi.mapPending t ht

theorem inv_routerStep {s : CoreState} (t : TaskId) (o : Outcome)
    (hi : Inv s) : Inv (routerStep t o s) := by
  unfold routerStep
  by_cases hm : t ∈ s.mapping
  · rw [if_pos hm]
    refine ⟨hi.tNodup, hi.tFresh, ?_, hi.wNodup, hi.pNodup, hi.iNodup,
      hi.capBound, hi.pendingQueued, hi.inFlightDispatched, ?_, ?_⟩
    · intro u v h
      rw [alookup_setVal] at h
      by_cases hut : u = t
      · rw [if_pos hut] at h
        rcases Option.map_eq_some'.mp h with ⟨w, hw, _⟩
        exact hut ▸ hi.fFresh t w hw
      · rw [if_neg hut] at h
        exact hi.fFresh u v h
    · exact lerase_nodup hi.mapNodup
    · intro u hu
      have hu2 : u ∈ s.mapping := mem_lerase hu
      have hne : u ≠ t := fun he =>
        not_mem_lerase_self hi.mapNodup (he ▸ hu)
      rw [alookup_setVal, if_neg hne]
      exact hi.mapPending u hu2
  · rw [if_neg hm]
    exact hi

theorem inv_registerStep {s : CoreState} (wid : WorkerId) (cap : Nat)
    (hi : Inv s) : Inv (registerStep wid cap s) := by
  unfold registerStep
  cases hw : alookup wid s.workers with
  | some w => exact hi
  | none =>
    have hnk : wid ∉ keysOf s.workers := by
      intro hk
      rcases exists_alookup_of_mem_keys hk with ⟨v, hv⟩
      rw [hw] at hv
      exact Option.noConfusion hv
    have hcases : ∀ {wid2 : WorkerId} {w2 : Worker},
        alookup wid2 (s.workers ++ [(wid, (⟨cap, []⟩ : Worker))]) = some w2 →
        alookup wid2 s.workers = some w2
          ∨ (wid2 = wid ∧ w2 = (⟨cap, []⟩ : Worker)) := by
      intro wid2 w2 h
      cases hl : alookup wid2 s.workers with
      | some w3 =>
        have hv : w3 = w2 :=
          Option.some.inj ((alookup_append_left _ hl).symm.trans h)
        exact Or.inl (congrArg some hv)
      | none =>
        rw [alookup_append_right _ hl] at h
        have h2 : (if wid = wid2 then some (⟨cap, []⟩ : Worker)
            else Option.none) = some w2 := h
        by_cases hk : wid = wid2
        · rw [if_pos hk] at h2
          exact Or.inr ⟨hk.symm, (Option.some.inj h2).symm⟩
        · rw [if_neg hk] at h2
          exact Option.noConfusion h2
    refine ⟨hi.tNodup, hi.tFresh, hi.fFresh, ?_, hi.pNodup, ?_, ?_,
      hi.pendingQueued, ?_, hi.mapNodup, hi.mapPending⟩
    · show ((keysOf (s.workers ++ [(wid, (⟨cap, []⟩ : Worker))])).Nodup : Prop)
      have hkeys : keysOf (s.workers ++ [(wid, (⟨cap, []⟩ : Worker))])
          = keysOf s.workers ++ [wid] := by
        rw [keysOf, List.map_append]
        rfl
      rw [hkeys]
      refine List.nodup_append.mpr ⟨hi.wNodup, List.nodup_singleton _, ?_⟩
      intro a ha hb
      rw [List.mem_singleton] at hb
      exact hnk (hb ▸ ha)
    · intro wid2 w2 h
      rcases hcases h with h | ⟨_, hw2⟩
      · exact hi.iNodup wid2 w2 h
      · rw [hw2]
        exact List.nodup_nil
    · intro wid2 w2 h
      rcases hcases h with h | ⟨_, hw2⟩
      · exact hi.capBound wid2 w2 h
      · rw [hw2]
        exact Nat.zero_le _
    · intro wid2 w2 h u hu
      rcases hcases h with h | ⟨_, hw2⟩
      · exact hi.inFlightDispatched wid2 w2 h u hu
      · rw [hw2] at hu
        exact absurd hu (List.not_mem_nil _)

theorem inv_teardownStep {s : CoreState} (hi : Inv s) :
    Inv (teardownStep s) := by
  refine ⟨hi.tNodup, hi.tFresh, ?_, hi.wNodup, hi.pNodup, hi.iNodup,
    hi.capBound, hi.pendingQueued, hi.inFlightDispatched,
    List.nodup_nil, ?_⟩
  · intro u v h
    have h2 : alookup u (s.futures.map
        (fun p => (p.1, resolveOnTeardown p.2))) = some v := h
    rw [alookup_mapVal] at h2
    rcases Option.map_eq_some'.mp h2 with ⟨w, hw, _⟩
    exact hi.fFresh u w hw
  · intro u hu
    exact absurd hu (List.not_mem_nil _)

theorem inv_cancelStep {s : CoreState} (t : TaskId) (hi : Inv s) :
    Inv (cancelStep t s) := by
  unfold cancelStep
  by_cases hm : t ∈ s.mapping
  · rw [if_pos hm]
    cases ht : alookup t s.tasks with
    | none => exact hi
    | some st =>
      cases st with
      | completed => exact hi
      | failed => exact hi
      | queued =>
        refine ⟨keysNodup_aeraseKey hi.tNodup, ?_, ?_, hi.wNodup,
          lerase_nodup hi.pNodup, hi.iNodup, hi.capBound, ?_, ?_,
          lerase_nodup hi.mapNodup, ?_⟩
        · intro u v h
          by_cases hut : u = t
          · rw [hut, alookup_aeraseKey_self hi.tNodup] at h
            exact Option.noConfusion h
          · rw [alookup_aeraseKey_ne _ hut] at h
            exact hi.tFresh u v h
        · intro u v h
          rw [alookup_setVal] at h
          by_cases hut : u = t
          · rw [if_pos hut] at h
            rcases Option.map_eq_some'.mp h with ⟨w, hw, _⟩
            exact hut ▸ hi.fFresh t w hw
          · rw [if_neg hut] at h
            exact hi.fFresh u v h
        · intro u hu
          have hu2 : u ∈ s.pending := mem_lerase hu
          have hne : u ≠ t := fun he =>
            not_mem_lerase_self hi.pNodup (he ▸ hu)
          rw [alookup_aeraseKey_ne _ hne]
          exact hi.pendingQueued u hu2
        · intro wid w hw u hu
          have hd := hi.inFlightDispatched wid w hw u hu
          have hne : u ≠ t := fun he => by
            rw [he, ht] at hd
            exact TaskState.noConfusion (Option.some.inj hd)
          rw [alookup_aeraseKey_ne _ hne]
          exact hd
        · intro u hu
          have hu2 : u ∈ s.mapping := mem_lerase hu
          have hne : u ≠ t := fun he =>
            not_mem_lerase_self hi.mapNodup (he ▸ hu)
          rw [alookup_setVal, if_neg hne]
          exact hi.mapPending u hu2
      | dispatched wid0 =>
        refine ⟨hi.tNodup, hi.tFresh, ?_, hi.wNodup, hi.pNodup, hi.iNodup,
          hi.capBound, hi.pendingQueued, hi.inFlightDispatched,
          lerase_nodup hi.mapNodup, ?_⟩
        · intro u v h
          rw [alookup_setVal] at h
          by_cases hut : u = t
          · rw [if_pos hut] at h
            rcases Option.map_eq_some'.mp h with ⟨w, hw, _⟩
            exact hut ▸ hi.fFresh t w hw
          · rw [if_neg hut] at h
            exact hi.fFresh u v h
        · intro u hu
          have hu2 : u ∈ s.mapping := mem_lerase hu
          have hne : u ≠ t := fun he =>
            not_mem_lerase_self hi.mapNodup (he ▸ hu)
          rw [alookup_setVal, if_neg hne]
          exact hi.mapPending u hu2
  · rw [if_neg hm]
    exact hi

theorem inv_egressStep {s : CoreState} (t : TaskId) (ok : Bool)
    (hi : Inv s) : Inv (egressStep t ok s) := by
  unfold egressStep
  split
  · rename_i wid ht
    split
    · rename_i w hw
      have hwn : w.inFlight.Nodup := hi.iNodup wid w hw
      refine ⟨?_, ?_, hi.fFresh, ?_, hi.pNodup, ?_, ?_, ?_, ?_,
        hi.mapNodup, hi.mapPending⟩
      · show keysNodup (setVal t (if ok then TaskState.completed
          else TaskState.failed) s.tasks)
        rw [keysNodup, keysOf_setVal]
        exact hi.tNodup
      · intro u v h
        rw [alookup_setVal] at h
        by_cases hut : u = t
        · rw [if_pos hut] at h
          rcases Option.map_eq_some'.mp h with ⟨v2, hv2, _⟩
          exact hut ▸ hi.tFresh t v2 hv2
        · rw [if_neg hut] at h
          exact hi.tFresh u v h
      · show keysNodup (setVal wid
          (⟨w.capacity, lerase t w.inFlight⟩ : Worker) s.workers)
        rw [keysNodup, keysOf_setVal]
        exact hi.wNodup
      · intro wid2 w2 h
        rw [alookup_setVal] at h
        by_cases h22 : wid2 = wid
        · rw [if_pos h22, hw] at h
          have hv : w2 = ⟨w.capacity, lerase t w.inFlight⟩ :=
            (Option.some.inj h).symm
          rw [hv]
          exact lerase_nodup hwn
        · rw [if_neg h22] at h
          exact hi.iNodup wid2 w2 h
      · intro wid2 w2 h
        rw [alookup_setVal] at h
        by_cases h22 : wid2 = wid
        · rw [if_pos h22, hw] at h
          have hv : w2 = ⟨w.capacity, lerase t w.inFlight⟩ :=
            (Option.some.inj h).symm
          rw [hv]
          exact le_trans (length_lerase_le t w.inFlight)
            (hi.capBound wid w hw)
        · rw [if_neg h22] at h
          exact hi.capBound wid2 w2 h
      · intro u hu
        have hq := hi.pendingQueued u hu
        have hne : u ≠ t := fun he => by
          rw [he, ht] at hq
          exact TaskState.noConfusion (Option.some.inj hq)
        rw [alookup_setVal, if_neg hne]
        exact hq
      · intro wid2 w2 h u hu
        rw [alookup_setVal] at h
        by_cases h22 : wid2 = wid
        · rw [if_pos h22, hw] at h
          have hv : w2 = ⟨w.capacity, lerase t w.inFlight⟩ :=
            (Option.some.inj h).symm
          rw [hv] at hu
          have hu2 : u ∈ w.inFlight := mem_lerase hu
          have hd := hi.inFlightDispatched wid w hw u hu2
          have hne : u ≠ t := fun he =>
            not_mem_lerase_self hwn (he ▸ hu)
          rw [alookup_setVal, if_neg hne, h22]
          exact hd
        · rw [if_neg h22] at h
          have hd := hi.inFlightDispatched wid2 w2 h u hu
          have hne : u ≠ t := fun he => by
            rw [he, ht] at hd
            exact h22 (TaskState.dispatched.inj
              (Option.some.inj hd)).symm
          rw [alookup_setVal, if_neg hne]
          exact hd
    · exact hi
  · exact hi

theorem inv_watchdogStep {s : CoreState} (wid : WorkerId) (hi : Inv s) :
    Inv (watchdogStep wid s) := by
  unfold watchdogStep
  cases hw : alookup wid s.workers with
  | none => exact hi
  | some w =>
    have hwn : w.inFlight.Nodup := hi.iNodup wid w hw
    have hdisj : ∀ u ∈ w.inFlight, u ∉ s.pending := by
      intro u hu hup
      have h1 := hi.inFlightDispatched wid w hw u hu
      have h2 := hi.pendingQueued u hup
      rw [h1] at h2
      exact TaskState.noConfusion (Option.some.inj h2)
    refine ⟨?_, ?_, hi.fFresh, keysNodup_aeraseKey hi.wNodup, ?_, ?_, ?_,
      ?_, ?_, hi.mapNodup, hi.mapPending⟩
    · show keysNodup (setMany w.inFlight TaskState.queued s.tasks)
      rw [keysNodup, keysOf_setMany]
      exact hi.tNodup
    · intro u v h
      rw [alookup_setMany] at h
      by_cases hu : u ∈ w.inFlight
      · rw [if_pos hu] at h
        rcases Option.map_eq_some'.mp h with ⟨v2, hv2, _⟩
        exact hi.tFresh u v2 hv2
      · rw [if_neg hu] at h
        exact hi.tFresh u v h
    · refine List.nodup_append.mpr ⟨hwn, hi.pNodup, ?_⟩
      intro a ha hb
      exact hdisj a ha hb
    · intro wid2 w2 h
      by_cases h22 : wid2 = wid
      · rw [h22, alookup_aeraseKey_self hi.wNodup] at h
        exact Option.noConfusion h
      · rw [alookup_aeraseKey_ne _ h22] at h
        exact hi.iNodup wid2 w2 h
    · intro wid2 w2 h
      by_cases h22 : wid2 = wid
      · rw [h22, alookup_aeraseKey_self hi.wNodup] at h
        exact Option.noConfusion h
      · rw [alookup_aeraseKey_ne _ h22] at h
        exact hi.capBound wid2 w2 h
    · intro u hu
      rcases List.mem_append.mp hu with hu | hu
      · rw [alookup_setMany, if_pos hu, hi.inFlightDispatched wid w hw u hu]
        rfl
      · have hnotin : u ∉ w.inFlight := fun hin => hdisj u hin hu
        rw [alookup_setMany, if_neg hnotin]
        exact hi.pendingQueued u hu
    · intro wid2 w2 h u hu
      by_cases h22 : wid2 = wid
      · rw [h22, alookup_aeraseKey_self hi.wNodup] at h
        exact Option.noConfusion h
      · rw [alookup_aeraseKey_ne _ h22] at h
        have hd := hi.inFlightDispatched wid2 w2 h u hu
        have hnotin : u ∉ w.inFlight := by
          intro hin
          have hd2 := hi.inFlightDispatched wid w hw u hin
          rw [hd] at hd2
          exact h22 (TaskState.dispatched.inj (Option.some.inj hd2))
        rw [alookup_setMany, if_neg hnotin]
        exact hd

theorem inv_dispatchStep {s : CoreState} (hi : Inv s) :
    Inv (dispatchStep s) := by
  unfold dispatchStep
  split
  · exact hi
  · rename_i wid w hsel
    rcases selectWorker_mem hsel with ⟨hmem, _⟩
    have hwl : alookup wid s.workers = some w :=
      mem_alookup_of_keysNodup hi.wNodup hmem
    have hwn : w.inFlight.Nodup := hi.iNodup wid w hwl
    split
    · exact hi
    · rename_i hts
      have htsub : ∀ u ∈ s.pending.take (min s.batchSize (spareOf w)),
          u ∈ s.pending := fun u hu => List.take_subset _ _ hu
      have htnd : (s.pending.take (min s.batchSize (spareOf w))).Nodup :=
        (List.take_sublist _ _).nodup hi.pNodup
      have htdisj : ∀ u ∈ s.pending.drop (min s.batchSize (spareOf w)),
          u ∉ s.pending.take (min s.batchSize (spareOf w)) := by
        intro u hu hut
        have hnd : ((s.pending.take (min s.batchSize (spareOf w)))
            ++ s.pending.drop (min s.batchSize (spareOf w))).Nodup := by
          rw [List.take_append_drop]
          exact hi.pNodup
        rcases List.nodup_append.mp hnd with ⟨_, _, hdj⟩
        exact hdj hut hu
      have hifdisj : ∀ u ∈ w.inFlight,
          u ∉ s.pending.take (min s.batchSize (spareOf w)) := by
        intro u hu hut
        have h1 := hi.inFlightDispatched wid w hwl u hu
        have h2 := hi.pendingQueued u (htsub u hut)
        rw [h1] at h2
        exact TaskState.noConfusion (Option.some.inj h2)
      refine ⟨?_, ?_, hi.fFresh, ?_, ?_, ?_, ?_, ?_, ?_,
        hi.mapNodup, hi.mapPending⟩
      · show keysNodup (setMany _ (TaskState.dispatched wid) s.tasks)
        rw [keysNodup, keysOf_setMany]
        exact hi.tNodup
      · intro u v h
        rw [alookup_setMany] at h
        by_cases hu : u ∈ s.pending.take (min s.batchSize (spareOf w))
        · rw [if_pos hu] at h
          rcases Option.map_eq_some'.mp h with ⟨v2, hv2, _⟩
          exact hi.tFresh u v2 hv2
        · rw [if_neg hu] at h
          exact hi.tFresh u v h
      · show keysNodup (setVal wid _ s.workers)
        rw [keysNodup, keysOf_setVal]
        exact hi.wNodup
      · exact (List.drop_sublist _ _).nodup hi.pNodup
      · intro wid2 w2 h
        rw [alookup_setVal] at h
        by_cases h22 : wid2 = wid
        · rw [if_pos h22, hwl] at h
          have hv : w2 = ⟨w.capacity, w.inFlight
              ++ s.pending.take (min s.batchSize (spareOf w))⟩ :=
            (Option.some.inj h).symm
          rw [hv]
          refine List.nodup_append.mpr ⟨hwn, htnd, ?_⟩
          intro a ha hb
          exact hifdisj a ha hb
        · rw [if_neg h22] at h
          exact hi.iNodup wid2 w2 h
      · intro wid2 w2 h
        rw [alookup_setVal] at h
        by_cases h22 : wid2 = wid
        · rw [if_pos h22, hwl] at h
          have hv : w2 = ⟨w.capacity, w.inFlight
              ++ s.pending.take (min s.batchSize (spareOf w))⟩ :=
            (Option.some.inj h).symm
          rw [hv]
          show (w.inFlight
              ++ s.pending.take (min s.batchSize (spareOf w))).length
            ≤ w.capacity
          rw [List.length_append]
          have hlen : (s.pending.take (min s.batchSize (spareOf w))).length
              ≤ min s.batchSize (spareOf w) := List.length_take_le _ _
          have hmin : min s.batchSize (spareOf w) ≤ spareOf w :=
            min_le_right _ _
          have hsp : spareOf w = w.capacity - w.inFlight.length := rfl
          have hcap : w.inFlight.length ≤ w.capacity :=
            hi.capBound wid w hwl
          omega
        · rw [if_neg h22] at h
          exact hi.capBound wid2 w2 h
      · intro u hu
        have hup : u ∈ s.pending := List.drop_subset _ _ hu
        have hnotin : u ∉ s.pending.take (min s.batchSize (spareOf w)) :=
          htdisj u hu
        rw [alookup_setMany, if_neg hnotin]
        exact hi.pendingQueued u hup
      · intro wid2 w2 h u hu
        rw [alookup_setVal] at h
        by_cases h22 : wid2 = wid
        · rw [if_pos h22, hwl] at h
          have hv : w2 = ⟨w.capacity, w.inFlight
              ++ s.pending.take (min s.batchSize (spareOf w))⟩ :=
            (Option.some.inj h).symm
          rw [hv] at hu
          rcases List.mem_append.mp hu with hu | hu
          · have hd := hi.inFlightDispatched wid w hwl u hu
            have hnotin : u ∉ s.pending.take (min s.batchSize (spareOf w)) :=
              hifdisj u hu
            rw [alookup_setMany, if_neg hnotin, h22]
            exact hd
          · rw [alookup_setMany, if_pos hu,
              hi.pendingQueued u (htsub u hu), h22]
            rfl
        · rw [if_neg h22] at h
          have hd := hi.inFlightDispatched wid2 w2 h u hu
          have hnotin : u ∉ s.pending.take (min s.batchSize (spareOf w)) := by
            intro hin
            have h2 := hi.pendingQueued u (htsub u hin)
            rw [hd] at h2
            exact TaskState.noConfusion (Option.some.inj h2)
          rw [alookup_setMany, if_neg hnotin]
          exact hd

/-- Every step of the system preserves the bookkeeping invariant. -/
theorem inv_step {s s2 : CoreState} {l : Label} (hst : Step l s s2)
    (hi : Inv s) : Inv s2 := by
  cases hst with
  | submit s => exact inv_submitStep hi
  | dispatch s => exact inv_dispatchStep hi
  | egress t ok s => exact inv_egressStep t ok hi
  | router t o s => exact inv_routerStep t o hi
  | register wid cap s => exact inv_registerStep wid cap hi
  | watchdog wid s => exact inv_watchdogStep wid hi
  | cancel t s => exact inv_cancelStep t hi
  | teardown s => exact inv_teardownStep hi

/-- Every reachable state satisfies the bookkeeping invariant. -/
theorem reachable_inv {s : CoreState} (hr : Reachable s) : Inv s := by
  induction hr with
  | init queueLimit batchSize => exact inv_initState queueLimit batchSize
  | step _ hst ih => exact inv_step hst ih

theorem futures_dispatchStep (s : CoreState) :
    (dispatchStep s).futures = s.futures := by
  unfold dispatchStep
  split
  · rfl
  · split
    · rfl
    · rfl

theorem futures_egressStep (t : TaskId) (ok : Bool) (s : CoreState) :
    (egressStep t ok s).futures = s.futures := by
  unfold egressStep
  split
  · split
    · rfl
    · rfl
  · rfl

theorem futures_registerStep (wid : WorkerId) (cap : Nat) (s : CoreState) :
    (registerStep wid cap s).futures = s.futures := by
  unfold registerStep
  split
  · rfl
  · rfl

theorem futures_watchdogStep (wid : WorkerId) (s : CoreState) :
    (watchdogStep wid s).futures = s.futures := by
  unfold watchdogStep
  split
  · rfl
  · rfl

theorem tasks_routerStep (t : TaskId) (o : Outcome) (s : CoreState) :
    (routerStep t o s).tasks = s.tasks := by
  unfold routerStep
  split
  · rfl
  · rfl

theorem tasks_registerStep (wid : WorkerId) (cap : Nat) (s : CoreState) :
    (registerStep wid cap s).tasks = s.tasks := by
  unfold registerStep
  split
  · rfl
  · rfl

theorem tasks_teardownStep (s : CoreState) :
    (teardownStep s).tasks = s.tasks := rfl

/-- A Future that is already resolved is left exactly as it is by every
step of the system: no step re-resolves, un-resolves or overwrites it. -/
theorem resolved_stable {s s2 : CoreState} {l : Label} {t : TaskId}
    {o : Outcome} (hi : Inv s) (hst : Step l s s2)
    (h : alookup t s.futures = some (FutureState.resolved o)) :
    alookup t s2.futures = some (FutureState.resolved o) := by
  cases hst with
  | submit s =>
    unfold submitStep submit
    by_cases hfull : s.queueLimit ≤ s.mapping.length
    · rw [if_pos hfull]
      exact h
    · rw [if_neg hfull]
      have hne : ¬ s.nextId = t := fun he => by
        rw [← he, fresh_none hi.fFresh] at h
        exact Option.noConfusion h
      show (if s.nextId = t then some FutureState.pending
          else alookup t s.futures) = some (FutureState.resolved o)
      rw [if_neg hne]
      exact h
  | dispatch s =>
    rw [futures_dispatchStep]
    exact h
  | egress t2 ok s =>
    rw [futures_egressStep]
    exact h
  | router t2 o2 s =>
    unfold routerStep
    by_cases hm : t2 ∈ s.mapping
    · rw [if_pos hm]
      have hp := hi.mapPending t2 hm
      have hne : t ≠ t2 := fun he => by
        rw [he, hp] at h
        exact FutureState.noConfusion (Option.some.inj h)
      rw [alookup_setVal, if_neg hne]
      exact h
    · rw [if_neg hm]
      exact h
  | register wid cap s =>
    rw [futures_registerStep]
    exact h
  | watchdog wid s =>
    rw [futures_watchdogStep]
    exact h
  | cancel t2 s =>
    unfold cancelStep
    by_cases hm : t2 ∈ s.mapping
    · rw [if_pos hm]
      have hp := hi.mapPending t2 hm
      have hne : t ≠ t2 := fun he => by
        rw [he, hp] at h
        exact FutureState.noConfusion (Option.some.inj h)
      split
      · rw [alookup_setVal, if_neg hne]
        exact h
      · rw [alookup_setVal, if_neg hne]
        exact h
      · exact h
    · rw [if_neg hm]
      exact h
  | teardown s =>
    show alookup t (s.futures.map (fun p => (p.1, resolveOnTeardown p.2)))
        = some (FutureState.resolved o)
    rw [alookup_mapVal, h]
    rfl

/-- The Result Router drops a delivery whose task id has no mapping entry:
the whole state is unchanged. -/
theorem routerStep_not_mem {s : CoreState} {t : TaskId} (o : Outcome)
    (h : t ∉ s.mapping) : routerStep t o s = s := by
  unfold routerStep
  rw [if_neg h]

/-- C4: in every reachable state, a resolved Future stays resolved with the
same single outcome across every step taken by any component under any
interleaving (so no Future is ever resolved twice or overwritten), and the
connection teardown step leaves every Future of the session resolved (so
no Future hangs unresolved while its owning session ends). -/
theorem c4_future_resolved_once (s s2 : CoreState) (l : Label)
    (t u : TaskId) (o : Outcome) (f : FutureState) (hr : Reachable s)
    (hst : Step l s s2)
    (hres : alookup t s.futures = some (FutureState.resolved o)) :
    alookup t s2.futures = some (FutureState.resolved o)
    ∧ (alookup u (teardownStep s).futures = some f →
        ∃ o2, f = FutureState.resolved o2) := by
  constructor
  · exact resolved_stable (reachable_inv hr) hst hres
  · intro h
    have h2 : alookup u (s.futures.map
        (fun p => (p.1, resolveOnTeardown p.2))) = some f := h
    rw [alookup_mapVal] at h2
    rcases Option.map_eq_some'.mp h2 with ⟨g, _, hg⟩
    cases g with
    | pending => exact ⟨Outcome.connectionLost, hg.symm⟩
    | resolved o3 => exact ⟨o3, hg.symm⟩

/-- C4 witness: in the concrete session that submits one task and receives
its result, the resolved Future of task 0 is unchanged by a further
teardown step, and after teardown every Future is resolved. -/
theorem c4_future_resolved_once_witness :
    alookup 0 (teardownStep (routerStep 0 Outcome.success
        (submitStep (initState 4 2)))).futures
      = some (FutureState.resolved Outcome.success)
    ∧ (alookup 0 (teardownStep (routerStep 0 Outcome.success
          (submitStep (initState 4 2)))).futures
        = some (FutureState.resolved Outcome.success) →
        ∃ o2, FutureState.resolved Outcome.success
          = FutureState.resolved o2) :=
  c4_future_resolved_once
    (routerStep 0 Outcome.success (submitStep (initState 4 2)))
    (teardownStep (routerStep 0 Outcome.success (submitStep (initState 4 2))))
    Label.teardown 0 0 Outcome.success
    (FutureState.resolved Outcome.success)
    (Reachable.step
      (Reachable.step (Reachable.init 4 2) (Step.submit _))
      (Step.router 0 Outcome.success _))
    (Step.teardown _)
    (by decide)

/-- C5: in every reachable state of the Interchange, every registered
worker holds at most its capacity in its in flight set; since reachability
closes over all the operations (submission, dispatch, result handling,
watchdog requeue, worker registration and removal, cancellation,
teardown), each of them preserves the bound. -/
theorem c5_capacity_bound (s : CoreState) (wid : WorkerId) (w : Worker)
    (hr : Reachable s) (hw : alookup wid s.workers = some w) :
    w.inFlight.length ≤ w.capacity :=
  (reachable_inv hr).capBound wid w hw

/-- C5 witness: a concrete reachable state in which worker 7 of capacity 3
was registered, two tasks were submitted and a dispatch round ran; the
bound holds for its registration record. -/
theorem c5_capacity_bound_witness :
    (Worker.mk 3 [0, 1]).inFlight.length ≤ (Worker.mk 3 [0, 1]).capacity :=
  c5_capacity_bound
    (dispatchStep (submitStep (submitStep (registerStep 7 3
      (initState 4 2)))))
    7 (Worker.mk 3 [0, 1])
    (Reachable.step
      (Reachable.step
        (Reachable.step
          (Reachable.step (Reachable.init 4 2) (Step.register 7 3 _))
          (Step.submit _))
        (Step.submit _))
      (Step.dispatch _))
    (by decide)

/-- C6: a result delivery whose task id is not in the client side mapping
table leaves the whole client state unchanged (the item is dropped), and
replaying any further delivery for the same task id after a first delivery
has been processed leaves every Future unchanged: duplicates never resolve
a Future twice. -/
theorem c6_duplicate_delivery_noop (s : CoreState) (t : TaskId)
    (o o2 : Outcome) (hr : Reachable s) :
    (t ∉ s.mapping → routerStep t o s = s)
    ∧ (routerStep t o2 (routerStep t o s)).futures
        = (routerStep t o s).futures := by
  have hn : s.mapping.Nodup := (reachable_inv hr).mapNodup
  constructor
  · intro hm
    exact routerStep_not_mem o hm
  · by_cases hm : t ∈ s.mapping
    · have hmap : (routerStep t o s).mapping = lerase t s.mapping := by
        unfold routerStep
        rw [if_pos hm]
      have hnot : t ∉ (routerStep t o s).mapping := by
        rw [hmap]
        exact not_mem_lerase_self hn
      rw [routerStep_not_mem o2 hnot]
    · rw [routerStep_not_mem o hm, routerStep_not_mem o2 hm]

/-- C6 witness: in the concrete reachable state where task 0 was submitted
and its result delivered, a delivery for the stale id 0 is dropped whole,
and replaying deliveries for id 0 leaves the futures table unchanged. -/
theorem c6_duplicate_delivery_noop_witness :
    (0 ∉ (routerStep 0 Outcome.success (submitStep (initState 4 2))).mapping
      → routerStep 0 Outcome.taskException
          (routerStep 0 Outcome.success (submitStep (initState 4 2)))
        = routerStep 0 Outcome.success (submitStep (initState 4 2)))
    ∧ (routerStep 0 Outcome.workerLost (routerStep 0 Outcome.taskException
          (routerStep 0 Outcome.success (submitStep (initState 4 2))))).futures
        = (routerStep 0 Outcome.taskException
            (routerStep 0 Outcome.success
              (submitStep (initState 4 2)))).futures :=
  c6_duplicate_delivery_noop
    (routerStep 0 Outcome.success (submitStep (initState 4 2)))
    0 Outcome.taskException Outcome.workerLost
    (Reachable.step
      (Reachable.step (Reachable.init 4 2) (Step.submit _))
      (Step.router 0 Outcome.success _))

/-- C7: a submission when the configured in flight limit is reached fails
with QueueFull (the caller can retry: nothing blocks), and an accepted
submission is never silently dropped: the returned task id is on the
pending queue, owns a pending Future and is registered in the mapping
table. -/
theorem c7_backpressure (s : CoreState) :
    (s.queueLimit ≤ s.mapping.length →
      submit s = Except.error SubmitErr.queueFull)
    ∧ (∀ s2 t, submit s = Except.ok (s2, t) →
        t ∈ s2.pending
        ∧ alookup t s2.futures = some FutureState.pending
        ∧ t ∈ s2.mapping) := by
  constructor
  · intro h
    unfold submit
    rw [if_pos h]
  · intro s2 t h
    unfold submit at h
    by_cases hfull : s.queueLimit ≤ s.mapping.length
    · rw [if_pos hfull] at h
      exact Except.noConfusion h
    · rw [if_neg hfull] at h
      rcases Prod.mk.inj (Except.ok.inj h) with ⟨hs2, ht⟩
      refine ⟨?_, ?_, ?_⟩
      · rw [← hs2, ← ht]
        exact List.mem_append.mpr (Or.inr (List.mem_singleton.mpr rfl))
      · rw [← hs2, ← ht]
        show (if s.nextId = s.nextId then some FutureState.pending
            else alookup s.nextId s.futures) = some FutureState.pending
        rw [if_pos rfl]
      · rw [← hs2, ← ht]
        exact List.mem_cons_self _ _

/-- C7 witness: with the in flight limit 0 already reached, a submission
fails with QueueFull; with limit 4, the accepted submission of task 0 is
queued, has a pending Future and a mapping entry. -/
theorem c7_backpressure_witness :
    submit (initState 0 2) = Except.error SubmitErr.queueFull
    ∧ (0 ∈ (submitStep (initState 4 2)).pending
        ∧ alookup 0 (submitStep (initState 4 2)).futures
            = some FutureState.pending
        ∧ 0 ∈ (submitStep (initState 4 2)).mapping) :=
  ⟨(c7_backpressure (initState 0 2)).1 (by decide),
   (c7_backpressure (initState 4 2)).2 (submitStep (initState 4 2)) 0
     (by rfl)⟩

/-- Modelled from the spec: the per envelope state machine of section 4.5.
One step may leave an envelope unchanged, create it Queued at submission,
move Queued to Dispatched at dispatch, move Dispatched to Completed or
Failed at egress, move Dispatched back to Queued only in a watchdog step,
or destroy a still Queued envelope on cancellation. No other transition is
allowed: in particular Completed and Failed admit no outgoing transition,
and Queued never jumps directly to Completed or Failed. -/
def envelopeTransOk (before after : Option TaskState) (l : Label) : Prop :=
  after = before
  ∨ (before = Option.none ∧ after = some TaskState.queued
      ∧ l = Label.submit)
  ∨ (∃ w, before = some TaskState.queued
      ∧ after = some (TaskState.dispatched w) ∧ l = Label.dispatch)
  ∨ (∃ w, before = some (TaskState.dispatched w)
      ∧ (after = some TaskState.completed ∨ after = some TaskState.failed)
      ∧ l = Label.egress)
  ∨ (∃ w, before = some (TaskState.dispatched w)
      ∧ after = some TaskState.queued ∧ l = Label.watchdog)
  ∨ (before = some TaskState.queued ∧ after = Option.none
      ∧ l = Label.cancel)

/-- C8: every step of the system moves every Task Envelope along the
allowed state machine only: Queued to Dispatched to Completed or Failed,
with Dispatched back to Queued exclusively in a watchdog requeue step,
terminal states never left, and no other transition ever taken. -/
theorem c8_envelope_state_machine (s s2 : CoreState) (l : Label)
    (t : TaskId) (hr : Reachable s) (hst : Step l s s2) :
    envelopeTransOk (alookup t s.tasks) (alookup t s2.tasks) l := by
  have hi := reachable_inv hr
  cases hst with
  | submit s =>
    unfold submitStep submit
    by_cases hfull : s.queueLimit ≤ s.mapping.length
    · rw [if_pos hfull]
      exact Or.inl rfl
    · rw [if_neg hfull]
      by_cases hnt : s.nextId = t
      · refine Or.inr (Or.inl ⟨?_, ?_, rfl⟩)
        · rw [← hnt]
          exact fresh_none hi.tFresh
        · show (if s.nextId = t then some TaskState.queued
              else alookup t s.tasks) = some TaskState.queued
          rw [if_pos hnt]
      · refine Or.inl ?_
        show (if s.nextId = t then some TaskState.queued
            else alookup t s.tasks) = alookup t s.tasks
        rw [if_neg hnt]
  | dispatch s =>
    unfold dispatchStep
    split
    · exact Or.inl rfl
    · rename_i wid w hsel
      split
      · exact Or.inl rfl
      · rename_i hts
        by_cases hmem : t ∈ s.pending.take (min s.batchSize (spareOf w))
        · refine Or.inr (Or.inr (Or.inl ⟨wid, ?_, ?_, rfl⟩))
          · exact hi.pendingQueued t (List.take_subset _ _ hmem)
          · rw [alookup_setMany, if_pos hmem,
              hi.pendingQueued t (List.take_subset _ _ hmem)]
            rfl
        · refine Or.inl ?_
          rw [alookup_setMany, if_neg hmem]
  | egress t2 ok s =>
    unfold egressStep
    split
    · rename_i wid ht2
      split
      · rename_i w hw
        by_cases htt : t = t2
        · subst htt
          refine Or.inr (Or.inr (Or.inr (Or.inl ⟨wid, ht2, ?_, rfl⟩)))
          rw [alookup_setVal, if_pos rfl, ht2]
          cases ok with
          | false => exact Or.inr rfl
          | true => exact Or.inl rfl
        · refine Or.inl ?_
          rw [alookup_setVal, if_neg htt]
      · exact Or.inl rfl
    · exact Or.inl rfl
  | router t2 o s =>
    rw [tasks_routerStep]
    exact Or.inl rfl
  | register wid cap s =>
    rw [tasks_registerStep]
    exact Or.inl rfl
  | watchdog wid s =>
    unfold watchdogStep
    split
    · rename_i w hw
      by_cases hmem : t ∈ w.inFlight
      · refine Or.inr (Or.inr (Or.inr (Or.inr (Or.inl
          ⟨wid, hi.inFlightDispatched wid w hw t hmem, ?_, rfl⟩))))
        rw [alookup_setMany, if_pos hmem,
          hi.inFlightDispatched wid w hw t hmem]
        rfl
      · refine Or.inl ?_
        rw [alookup_setMany, if_neg hmem]
    · exact Or.inl rfl
  | cancel t2 s =>
    unfold cancelStep
    by_cases hm : t2 ∈ s.mapping
    · rw [if_pos hm]
      split
      · rename_i ht2
        by_cases htt : t = t2
        · subst htt
          exact Or.inr (Or.inr (Or.inr (Or.inr (Or.inr
            ⟨ht2, alookup_aeraseKey_self hi.tNodup, rfl⟩))))
        · exact Or.inl (alookup_aeraseKey_ne _ htt)
      · exact Or.inl rfl
      · exact Or.inl rfl
    · rw [if_neg hm]
      exact Or.inl rfl
  | teardown s =>
    rw [tasks_teardownStep]
    exact Or.inl rfl

/-- C8 witness: the submission step creating envelope 0 in the concrete
initial session takes an allowed transition. -/
theorem c8_envelope_state_machine_witness :
    envelopeTransOk (alookup 0 (initState 4 2).tasks)
      (alookup 0 (submitStep (initState 4 2)).tasks) Label.submit :=
  c8_envelope_state_machine (initState 4 2) (submitStep (initState 4 2))
    Label.submit 0 (Reachable.init 4 2) (Step.submit _)

end ParslCore
